import Mathlib

/-!
Verification of the UT-Bot crypto signal scanner (`trading_bot.py`).

The embedding models prices as exact rationals.  Where the Python code can
produce IEEE NaN (the ATR warm-up window), values are modelled as `Option ℚ`
(`none` = NaN) with NaN-propagating arithmetic and NaN-false comparisons,
mirroring float semantics exactly for the operations the code performs
(no rounding is involved in any NaN-related decision).
-/

/- ### Configuration constants (from the CONFIGURATION block of the source) -/

def LIMIT : ℕ := 100
def TOP_N : ℕ := 25
def SL_LOOKBACK : ℕ := 10
def RISK_REWARD : ℚ := 2
def KEY_VALUE : ℚ := 2
def ATR_PERIOD : ℕ := 10

/- ### Data model -/

/-- One OHLCV row of the dataframe.  `timestamp` and `volume` are never read
by `calculate_strategy` or `run_scanner` and are omitted.  The Python field
`open` is a Lean keyword, hence `openPrice`. -/
structure Candle where
  openPrice : ℚ
  high : ℚ
  low : ℚ
  close : ℚ
  deriving DecidableEq, Inhabited, Repr

/-- A float value that may be NaN (`none`). -/
def FVal : Type := Option ℚ

instance : DecidableEq FVal := inferInstanceAs (DecidableEq (Option ℚ))
instance : Repr FVal := inferInstanceAs (Repr (Option ℚ))

/-- NaN-propagating addition. -/
def fadd : FVal → FVal → FVal
  | some x, some y => some (x + y)
  | _, _ => none

/-- NaN-propagating subtraction. -/
def fsub : FVal → FVal → FVal
  | some x, some y => some (x - y)
  | _, _ => none

/-- NaN-propagating multiplication. -/
def fmul : FVal → FVal → FVal
  | some x, some y => some (x * y)
  | _, _ => none

/-- `a > b` as Python evaluates it on floats: any comparison with NaN is false. -/
def fgt : FVal → FVal → Bool
  | some x, some y => decide (y < x)
  | _, _ => false

/-- `a < b`, false when either side is NaN. -/
def flt : FVal → FVal → Bool
  | some x, some y => decide (x < y)
  | _, _ => false

/-- `a >= b`, false when either side is NaN. -/
def fge : FVal → FVal → Bool
  | some x, some y => decide (y ≤ x)
  | _, _ => false

/-- `a <= b`, false when either side is NaN. -/
def fle : FVal → FVal → Bool
  | some x, some y => decide (x ≤ y)
  | _, _ => false

/-- Python `max(a, b)`: returns `b` exactly when `b > a`, so NaN in second
position is never selected while NaN in first position is kept. -/
def pymax (a b : FVal) : FVal := if fgt b a then b else a

/-- Python `min(a, b)`: returns `b` exactly when `b < a`. -/
def pymin (a b : FVal) : FVal := if flt b a then b else a

/- ### Heikin-Ashi transform (lines 61-68 of the source) -/

/-- `HA_Close[i] = (open[i] + high[i] + low[i] + close[i]) / 4`, pointwise. -/
def haCloseList (df : List Candle) : List ℚ :=
  df.map (fun r => (r.openPrice + r.high + r.low + r.close) / 4)

/-- The `ha_open` loop body: given the previous `ha_open` value, consume the
list of previous-row `HA_Close` values, producing one `ha_open` per step. -/
def haOpenGo (prev : ℚ) : List ℚ → List ℚ
  | [] => []
  | hc :: rest =>
      let nxt := (prev + hc) / 2
      nxt :: haOpenGo nxt rest

/-- `HA_Open`: seeded with `(open[0] + close[0]) / 2`, then
`ha_open[i] = (ha_open[i-1] + HA_Close[i-1]) / 2`. -/
def haOpenList (df : List Candle) : List ℚ :=
  match df with
  | [] => []
  | r0 :: _ =>
      let h0 := (r0.openPrice + r0.close) / 2
      h0 :: haOpenGo h0 ((haCloseList df).take (df.length - 1))

/- ### ATR and loss threshold (lines 73-74 call `pandas_ta.atr`) -/

/-- True-range helper over the tail, carrying the previous close. -/
def trGo (prevClose : ℚ) : List Candle → List ℚ
  | [] => []
  | r :: rest =>
      max (r.high - r.low) (max |r.high - prevClose| |r.low - prevClose|) :: trGo r.close rest

/-- True range series: `TR[0] = high[0] - low[0]`, and for `i ≥ 1`
`TR[i] = max(high-low, |high-prevClose|, |low-prevClose|)`. -/
def trueRangeList (df : List Candle) : List ℚ :=
  match df with
  | [] => []
  | r0 :: rest => (r0.high - r0.low) :: trGo r0.close rest

/-- Wilder smoothing recurrence after the seed. -/
def atrGo (prev : ℚ) : List ℚ → List ℚ
  | [] => []
  | tr :: rest =>
      let nxt := (prev * (ATR_PERIOD - 1 : ℚ) + tr) / (ATR_PERIOD : ℚ)
      nxt :: atrGo nxt rest

/-- Modelled from the spec: the source calls the external library function
`pandas_ta.atr` (not part of this repository), described in the spec as the
standard Wilder-style smoothed true-range average over `ATR_PERIOD` periods,
undefined (NaN) for indices `< ATR_PERIOD - 1`. -/
def atrList (df : List Candle) : List FVal :=
  let trs := trueRangeList df
  if trs.length < ATR_PERIOD then List.replicate trs.length none
  else
    let seed := (trs.take ATR_PERIOD).sum / (ATR_PERIOD : ℚ)
    List.replicate (ATR_PERIOD - 1) (none : FVal) ++
      (some seed :: (atrGo seed (trs.drop ATR_PERIOD)).map some)

/-- `nLoss = KEY_VALUE * ATR`, NaN where ATR is NaN. -/
def nLossList (df : List Candle) : List FVal :=
  (atrList df).map (fun a => fmul (some KEY_VALUE) a)

/- ### Trailing stop loop (lines 77-93 of the source) -/

/-- One iteration of the trailing-stop loop, exactly the four-branch body. -/
def utStep (prevStop : FVal) (prevPrice price : ℚ) (loss : FVal) : FVal :=
  if fgt (some price) prevStop && fgt (some prevPrice) prevStop then
    pymax prevStop (fsub (some price) loss)
  else if flt (some price) prevStop && flt (some prevPrice) prevStop then
    pymin prevStop (fadd (some price) loss)
  else if fgt (some price) prevStop then
    fsub (some price) loss
  else
    fadd (some price) loss

/-- The loop over indices `1 .. len-1`, consuming `(HA_Close[i], nLoss[i])`
pairs and carrying the previous stop and previous price. -/
def tsGo (prevStop : FVal) (prevPrice : ℚ) : List (ℚ × FVal) → List FVal
  | [] => []
  | (price, loss) :: rest =>
      let nxt := utStep prevStop prevPrice price loss
      nxt :: tsGo nxt price rest

/-- `trailing_stop`: seeded with `0.0` at index 0 (the `[0.0] * len(df)`
initialisation), then the loop from index 1. -/
def trailingStopList (hc : List ℚ) (nl : List FVal) : List FVal :=
  match hc with
  | [] => []
  | h0 :: hcs => some 0 :: tsGo (some 0) h0 (hcs.zip (nl.drop 1))

/- ### Signal generation (lines 96-128 of the source) -/

inductive Direction where
  | LONG
  | SHORT
  deriving DecidableEq, Repr

/-- Raw close of the last row, the entry price (`last_row['close']`). -/
def lastClose (df : List Candle) : ℚ :=
  (df.getD (df.length - 1) default).close

/-- The buy-crossover condition of line 106:
`HA_Close[-1] > TrailingStop[-1] and HA_Close[-2] <= TrailingStop[-2]`. -/
def longCond (df : List Candle) : Bool :=
  let haC := haCloseList df
  let ts := trailingStopList haC (nLossList df)
  let n := df.length - 1
  fgt (some (haC.getD n 0)) (ts.getD n none) &&
    fle (some (haC.getD (n - 1) 0)) (ts.getD (n - 1) none)

/-- The sell-crossover condition of line 118:
`HA_Close[-1] < TrailingStop[-1] and HA_Close[-2] >= TrailingStop[-2]`. -/
def shortCond (df : List Candle) : Bool :=
  let haC := haCloseList df
  let ts := trailingStopList haC (nLossList df)
  let n := df.length - 1
  flt (some (haC.getD n 0)) (ts.getD n none) &&
    fge (some (haC.getD (n - 1) 0)) (ts.getD (n - 1) none)

/-- Minimum of a list as pandas `.min()` computes it on clean data. -/
def windowMin : List ℚ → ℚ
  | [] => 0
  | x :: xs => xs.foldl min x

/-- Maximum of a list as pandas `.max()` computes it on clean data. -/
def windowMax : List ℚ → ℚ
  | [] => 0
  | x :: xs => xs.foldl max x

/-- The raw lows of `df['low'].iloc[-SL_LOOKBACK:]`. -/
def lowWindow (df : List Candle) : List ℚ :=
  (df.drop (df.length - SL_LOOKBACK)).map (fun r => r.low)

/-- The raw highs of `df['high'].iloc[-SL_LOOKBACK:]`. -/
def highWindow (df : List Candle) : List ℚ :=
  (df.drop (df.length - SL_LOOKBACK)).map (fun r => r.high)

/-- `calculate_strategy`.  Returns `none` when the dataframe has fewer than
two rows, in which case the Python `df.iloc[-2]` raises (the scanner catches
such exceptions); otherwise `some (signal, entry_price, stop_loss,
take_profit)` exactly as the source returns them. -/
def calculate_strategy (df : List Candle) : Option (Option Direction × ℚ × ℚ × ℚ) :=
  if df.length < 2 then none
  else
    let entry := lastClose df
    if longCond df then
      let sl := windowMin (lowWindow df)
      let risk := entry - sl
      some (some Direction.LONG, entry, sl, entry + risk * RISK_REWARD)
    else if shortCond df then
      let sl := windowMax (highWindow df)
      let risk := sl - entry
      some (some Direction.SHORT, entry, sl, entry - risk * RISK_REWARD)
    else
      some (none, entry, 0, 0)

/- ### Ticker ranking (lines 37-57 of the source) -/

/-- Substring test on character lists (Python `in` on strings). -/
def hasSubList : List Char → List Char → Bool
  | [], pat => pat.isEmpty
  | c :: rest, pat => pat.isPrefixOf (c :: rest) || hasSubList rest pat

/-- Python `pat in s` for strings. -/
def strHas (s pat : String) : Bool := hasSubList s.toList pat.toList

/-- Line 44: `'/USDT' in symbol and 'UP/' not in symbol and 'DOWN/' not in symbol`. -/
def eligibleSym (s : String) : Bool :=
  strHas s "/USDT" && !strHas s "UP/" && !strHas s "DOWN/"

/-- A ticker map: symbol paired with its 24h percentage change, `none` when
the exchange reports no value. -/
def Tickers : Type := List (String × Option ℚ)

/-- Dictionary lookup `tickers[x]['percentage']`. -/
def pctOf (t : Tickers) (s : String) : Option (Option ℚ) :=
  (t.find? (fun p => p.1 == s)).map (fun p => p.2)

/-- The sort key of line 50:
`tickers[x]['percentage'] if tickers[x]['percentage'] else -100` —
Python truthiness maps both a missing (`None`) and a zero change to `-100`. -/
def sortKey (t : Tickers) (s : String) : ℚ :=
  match pctOf t s with
  | some (some v) => if v = 0 then -100 else v
  | _ => -100

/-- The `valid_tickers` list comprehension: eligible symbols in map order. -/
def validTickers (t : Tickers) : List String :=
  (t.filter (fun p => eligibleSym p.1)).map (fun p => p.1)

/-- `sorted(valid_tickers, key=..., reverse=True)`: a stable descending sort
by `sortKey`.  `List.insertionSort` with `key a ≥ key b` is stable with
identical tie behaviour, hence produces the same list as Python `sorted`. -/
def sortedValid (t : Tickers) : List String :=
  List.insertionSort (fun a b => sortKey t b ≤ sortKey t a) (validTickers t)

/-- `get_top_gainers` (pure part): ranked eligible symbols, truncated. -/
def get_top_gainers (t : Tickers) : List String :=
  (sortedValid t).take TOP_N

/- ### Scan orchestration (lines 130-167 of the source) -/

/-- A dispatched alert: the data interpolated into the Telegram message. -/
structure Alert where
  symbol : String
  dir : Direction
  entry : ℚ
  sl : ℚ
  tp : ℚ
  deriving DecidableEq, Repr

/-- The body of the per-symbol `try` block.  `fetch` models
`exchange.fetch_ohlcv`; `Except.error` is any raised exception, which the
`except` clause of line 164 catches, yielding no alert.  A series shorter
than `LIMIT` is skipped by the `continue` of line 141.  `none` from
`calculate_strategy` models an exception inside the analysis, likewise
caught.  A falsy (absent) signal sends nothing. -/
def processSymbol (fetch : String → Except Unit (List Candle)) (sym : String) :
    Option Alert :=
  match fetch sym with
  | Except.error _ => none
  | Except.ok df =>
    if df.length < LIMIT then none
    else
      match calculate_strategy df with
      | none => none
      | some (sig, e, sl, tp) =>
        match sig with
        | none => none
        | some d => some ⟨sym, d, e, sl, tp⟩

/-- The `for symbol in top_coins` loop: strictly sequential, one symbol at a
time, collecting the dispatched alerts in order. -/
def runScanner (fetch : String → Except Unit (List Candle)) :
    List String → List Alert
  | [] => []
  | s :: rest =>
      match processSymbol fetch s with
      | none => runScanner fetch rest
      | some a => a :: runScanner fetch rest

/- ### Concrete series used by witnesses and counterexamples -/

/-- Twelve candles: flat at 104, a drop to 96, then a thrust whose raw close
(95) sits below the 96 swing low — a LONG crossover with degenerate risk. -/
def dfLong : List Candle :=
  List.replicate 10 ⟨104, 104, 104, 104⟩ ++ [⟨96, 96, 96, 96⟩, ⟨110, 110, 110, 95⟩]

/-- Same series with a healthy raw close of 112: a LONG crossover whose swing
low (96) lies below the entry. -/
def dfLong2 : List Candle :=
  List.replicate 10 ⟨104, 104, 104, 104⟩ ++ [⟨96, 96, 96, 96⟩, ⟨110, 110, 110, 112⟩]

/-- Two flat candles: no crossover. -/
def dfFlat : List Candle := [⟨4, 4, 4, 4⟩, ⟨4, 4, 4, 4⟩]

/-- Two candles inside the ATR warm-up whose second step takes the
`price > prev_stop` branch with a NaN loss. -/
def dfNan : List Candle := [⟨0, 0, 0, 0⟩, ⟨4, 4, 4, 4⟩]

/-- Ticker map with one negative-change and one zero-change symbol. -/
def T0 : Tickers := [("B/USDT", some (-5)), ("A/USDT", some 0)]

/- ### Helper lemmas: Python max/min and the loop step on defined values -/

theorem pymax_some (a b : ℚ) : pymax (some a) (some b) = some (max a b) := by
  simp only [pymax, fgt]
  rcases le_or_lt b a with h | h
  · simp [not_lt.mpr h, max_eq_left h]
  · simp [h, max_eq_right h.le]

theorem pymin_some (a b : ℚ) : pymin (some a) (some b) = some (min a b) := by
  simp only [pymin, flt]
  rcases le_or_lt a b with h | h
  · simp [not_lt.mpr h, min_eq_left h]
  · simp [h, min_eq_right h.le]

theorem utStep_some (s pp price l : ℚ) :
    utStep (some s) pp price (some l) =
      some (if price > s ∧ pp > s then max s (price - l)
            else if price < s ∧ pp < s then min s (price + l)
            else if price > s then price - l
            else price + l) := by
  simp only [utStep, fgt, flt, fsub, fadd, gt_iff_lt]
  by_cases h1 : s < price <;> by_cases h2 : s < pp <;>
    by_cases h3 : price < s <;> by_cases h4 : pp < s <;>
      simp [h1, h2, h3, h4, pymax_some, pymin_some]

theorem utStep_none_gt (s pp price : ℚ) (h1 : price > s) (h2 : ¬ pp > s) :
    utStep (some s) pp price none = none := by
  simp only [utStep, fgt, flt, fsub, fadd, gt_iff_lt] at h1 h2 ⊢
  simp [h1, h2, not_lt_of_lt h1]

theorem utStep_none_le (s pp price : ℚ) (h1 : ¬ price > s) (h2 : ¬ (price < s ∧ pp < s)) :
    utStep (some s) pp price none = none := by
  simp only [utStep, fgt, flt, fsub, fadd, gt_iff_lt] at h1 h2 ⊢
  push_neg at h2
  by_cases h3 : price < s
  · simp [h1, h3, not_lt.mpr (h2 h3)]
  · simp [h1, h3]

/- ### Helper lemmas: indexed access into the trailing-stop loop -/

theorem tsGo_length (pairs : List (ℚ × FVal)) : ∀ (p0 : FVal) (pp : ℚ),
    (tsGo p0 pp pairs).length = pairs.length := by
  induction pairs with
  | nil => intro p0 pp; rfl
  | cons hd rest ih =>
      intro p0 pp
      obtain ⟨pr, l⟩ := hd
      simp [tsGo, ih]

theorem tsGo_getD_zero (pairs : List (ℚ × FVal)) (p0 : FVal) (pp : ℚ)
    (h : 0 < pairs.length) :
    (tsGo p0 pp pairs).getD 0 none =
      utStep p0 pp (pairs.getD 0 (0, none)).1 (pairs.getD 0 (0, none)).2 := by
  cases pairs with
  | nil => simp at h
  | cons hd rest => obtain ⟨pr, l⟩ := hd; rfl

theorem tsGo_getD_succ (pairs : List (ℚ × FVal)) : ∀ (p0 : FVal) (pp : ℚ) (i : ℕ),
    i + 1 < pairs.length →
    (tsGo p0 pp pairs).getD (i + 1) none =
      utStep ((tsGo p0 pp pairs).getD i none)
        (pairs.getD i (0, none)).1
        (pairs.getD (i + 1) (0, none)).1
        (pairs.getD (i + 1) (0, none)).2 := by
  induction pairs with
  | nil => intro p0 pp i h; simp at h
  | cons hd rest ih =>
      intro p0 pp i h
      obtain ⟨pr, l⟩ := hd
      cases i with
      | zero =>
          cases rest with
          | nil => simp at h
          | cons hd2 rest2 =>
              obtain ⟨pr2, l2⟩ := hd2
              simp [tsGo]
      | succ j =>
          have hr : j + 1 < rest.length := by
            simpa using Nat.lt_of_succ_lt_succ h
          simpa [tsGo] using ih (utStep p0 pp pr l) pr j hr

theorem zip_getD (a : List ℚ) : ∀ (b : List FVal) (i : ℕ),
    i < a.length → i < b.length →
    (a.zip b).getD i (0, none) = (a.getD i 0, b.getD i none) := by
  induction a with
  | nil => intro b i ha hb; simp at ha
  | cons x xs ih =>
      intro b i ha hb
      cases b with
      | nil => simp at hb
      | cons y ys =>
          cases i with
          | zero => rfl
          | succ j =>
              simp only [List.zip_cons_cons, List.getD_cons_succ]
              exact ih ys j (by simpa using ha) (by simpa using hb)

theorem trailingStopList_length (hc : List ℚ) (nl : List FVal)
    (h : hc.length = nl.length) : (trailingStopList hc nl).length = hc.length := by
  cases hc with
  | nil => rfl
  | cons h0 hcs =>
      cases nl with
      | nil => simp at h
      | cons n0 nls =>
          have : hcs.length = nls.length := by simpa using h
          simp [trailingStopList, tsGo_length, this]

theorem trailingStopList_getD_zero (hc : List ℚ) (nl : List FVal) (h : hc ≠ []) :
    (trailingStopList hc nl).getD 0 none = some 0 := by
  cases hc with
  | nil => exact absurd rfl h
  | cons h0 hcs => rfl

/-- One step of the stored trailing-stop list equals `utStep` applied to the
previous stored value, the previous and current `HA_Close`, and the current
loss — the indexed form of the source loop. -/
theorem trailingStop_step (hc : List ℚ) (nl : List FVal)
    (hlen : hc.length = nl.length) (i : ℕ) (h1 : 1 ≤ i) (hi : i < hc.length) :
    (trailingStopList hc nl).getD i none =
      utStep ((trailingStopList hc nl).getD (i - 1) none)
        (hc.getD (i - 1) 0) (hc.getD i 0) (nl.getD i none) := by
  cases hc with
  | nil => simp at hi
  | cons h0 hcs =>
      cases nl with
      | nil => simp at hlen
      | cons n0 nls =>
          have hl : hcs.length = nls.length := by simpa using hlen
          have hzl : (hcs.zip nls).length = hcs.length := by simp [hl]
          obtain ⟨j, rfl⟩ : ∃ j, i = j + 1 := ⟨i - 1, by omega⟩
          have hjlen : j < hcs.length := by simpa using hi
          simp only [trailingStopList, List.drop_one, List.tail_cons,
            List.getD_cons_succ, Nat.add_sub_cancel]
          cases j with
          | zero =>
              rw [tsGo_getD_zero _ _ _ (by omega), zip_getD _ _ _ (by omega) (by omega)]
              rfl
          | succ k =>
              have hk : k + 1 < (hcs.zip nls).length := by omega
              rw [tsGo_getD_succ _ _ _ _ hk,
                zip_getD _ _ _ (by omega) (by omega),
                zip_getD _ _ _ (by omega) (by omega)]
              rfl

/- ### Claim theorems -/

/-- C1: for every series, the trailing-stop sequence starts at `0.0` and for
each `i ≥ 1` with the previous stop and the current loss defined, satisfies
the four-branch recurrence in exactly the source's priority order:
`max(prevStop, price - loss)` when price and previous price both exceed the
previous stop, `min(prevStop, price + loss)` when both are below it, else
`price - loss` when price is above, else `price + loss`. -/
theorem C1_trailing_stop_recurrence (hc : List ℚ) (nl : List FVal)
    (hlen : hc.length = nl.length) :
    (0 < hc.length → (trailingStopList hc nl).getD 0 none = some 0) ∧
    (∀ i, 1 ≤ i → i < hc.length → ∀ s l,
      (trailingStopList hc nl).getD (i - 1) none = some s →
      nl.getD i none = some l →
      (trailingStopList hc nl).getD i none =
        some (if hc.getD i 0 > s ∧ hc.getD (i - 1) 0 > s then max s (hc.getD i 0 - l)
              else if hc.getD i 0 < s ∧ hc.getD (i - 1) 0 < s then min s (hc.getD i 0 + l)
              else if hc.getD i 0 > s then hc.getD i 0 - l
              else hc.getD i 0 + l)) := by
  constructor
  · intro h
    exact trailingStopList_getD_zero hc nl (by intro he; rw [he] at h; simp at h)
  · intro i h1 hi s l hs hl
    rw [trailingStop_step hc nl hlen i h1 hi, hs, hl, utStep_some]

/-- Witness for C1 on a concrete two-element series. -/
theorem C1_witness :
    (trailingStopList [(1 : ℚ), 2] [none, some 1]).getD 1 none = some 1 := by
  have h := (C1_trailing_stop_recurrence [(1 : ℚ), 2] [none, some 1] rfl).2
    1 le_rfl (by norm_num) 0 1 (by decide) (by decide)
  norm_num at h
  exact h

/- ### Helper lemmas: indexed access for the Heikin-Ashi recurrence -/

theorem mapGetD {α β : Type} (f : α → β) (l : List α) : ∀ (i : ℕ), i < l.length →
    ∀ (da : α) (db : β), (l.map f).getD i db = f (l.getD i da) := by
  induction l with
  | nil => intro i h da db; simp at h
  | cons x xs ih =>
      intro i h da db
      cases i with
      | zero => rfl
      | succ j => exact ih j (by simpa using h) da db

theorem getD_take {α : Type} (l : List α) : ∀ (n i : ℕ), i < n →
    ∀ (d : α), (l.take n).getD i d = l.getD i d := by
  induction l with
  | nil => intro n i h d; simp
  | cons x xs ih =>
      intro n i h d
      cases n with
      | zero => omega
      | succ m =>
          cases i with
          | zero => rfl
          | succ j => simpa using ih m j (by omega) d

theorem haOpenGo_length (l : List ℚ) : ∀ (p : ℚ), (haOpenGo p l).length = l.length := by
  induction l with
  | nil => intro p; rfl
  | cons x xs ih => intro p; simp [haOpenGo, ih]

theorem haOpenGo_getD_zero (l : List ℚ) (p : ℚ) (h : 0 < l.length) :
    (haOpenGo p l).getD 0 0 = (p + l.getD 0 0) / 2 := by
  cases l with
  | nil => simp at h
  | cons x xs => rfl

theorem haOpenGo_getD_succ (l : List ℚ) : ∀ (p : ℚ) (i : ℕ), i + 1 < l.length →
    (haOpenGo p l).getD (i + 1) 0 =
      ((haOpenGo p l).getD i 0 + l.getD (i + 1) 0) / 2 := by
  induction l with
  | nil => intro p i h; simp at h
  | cons x xs ih =>
      intro p i h
      cases i with
      | zero =>
          cases xs with
          | nil => simp at h
          | cons y ys => simp [haOpenGo]
      | succ j =>
          have hr : j + 1 < xs.length := by simpa using Nat.lt_of_succ_lt_succ h
          simpa [haOpenGo] using ih ((p + x) / 2) j hr

/-- C5: the Heikin-Ashi transform produces parallel sequences of the input's
length with `haClose[i]` the OHLC average, `haOpen[0]` the open/close average
of the first candle, and `haOpen[i]` the sequential running average of the
previous `haOpen` and previous `haClose`. -/
theorem C5_heikin_ashi (df : List Candle) (h : 1 ≤ df.length) :
    (haCloseList df).length = df.length ∧
    (haOpenList df).length = df.length ∧
    (∀ i, i < df.length →
      (haCloseList df).getD i 0 =
        ((df.getD i default).openPrice + (df.getD i default).high +
          (df.getD i default).low + (df.getD i default).close) / 4) ∧
    ((haOpenList df).getD 0 0 =
      ((df.getD 0 default).openPrice + (df.getD 0 default).close) / 2) ∧
    (∀ i, 1 ≤ i → i < df.length →
      (haOpenList df).getD i 0 =
        ((haOpenList df).getD (i - 1) 0 + (haCloseList df).getD (i - 1) 0) / 2) := by
  have hclen : (haCloseList df).length = df.length := by simp [haCloseList]
  refine ⟨hclen, ?_, ?_, ?_, ?_⟩
  · cases df with
    | nil => simp at h
    | cons r0 rest =>
        simp only [haOpenList, List.length_cons, haOpenGo_length, List.length_take]
        simp [haCloseList]
  · intro i hi
    exact mapGetD _ df i hi default 0
  · cases df with
    | nil => simp at h
    | cons r0 rest => rfl
  · intro i h1 hi
    cases df with
    | nil => simp at h
    | cons r0 rest =>
        obtain ⟨j, rfl⟩ : ∃ j, i = j + 1 := ⟨i - 1, by omega⟩
        have hlen' : (r0 :: rest).length - 1 = rest.length := by simp
        have htl : ((haCloseList (r0 :: rest)).take ((r0 :: rest).length - 1)).length
            = rest.length := by
          simp only [List.length_take, hclen]
          simp
        simp only [haOpenList, List.getD_cons_succ, Nat.add_sub_cancel]
        cases j with
        | zero =>
            rw [haOpenGo_getD_zero _ _ (by rw [htl]; simpa using hi),
              getD_take _ _ _ (by simpa using hi)]
            rfl
        | succ k =>
            have hk : k + 1 < ((haCloseList (r0 :: rest)).take ((r0 :: rest).length - 1)).length := by
              rw [htl]; simpa using hi
            rw [haOpenGo_getD_succ _ _ _ hk,
              getD_take _ _ _ (by rw [htl] at hk; simpa using hi)]
            rfl

/-- Witness for C5: the recurrence instantiated on the flat two-candle series. -/
theorem C5_witness :
    (haOpenList dfFlat).getD 1 0 =
      ((haOpenList dfFlat).getD 0 0 + (haCloseList dfFlat).getD 0 0) / 2 :=
  (C5_heikin_ashi dfFlat (by decide)).2.2.2.2 1 le_rfl (by decide)

/- ### Helper lemmas: list minima and maxima as pandas computes them -/

theorem foldlMin_le (l : List ℚ) : ∀ a : ℚ, l.foldl min a ≤ a := by
  induction l with
  | nil => intro a; exact le_rfl
  | cons x xs ih =>
      intro a
      exact le_trans (ih (min a x)) (min_le_left a x)

theorem foldlMin_le_mem (l : List ℚ) : ∀ (a x : ℚ), x ∈ l → l.foldl min a ≤ x := by
  induction l with
  | nil => intro a x hx; simp at hx
  | cons y ys ih =>
      intro a x hx
      rcases List.mem_cons.mp hx with rfl | hx'
      · exact le_trans (foldlMin_le ys (min a x)) (min_le_right a x)
      · exact ih (min a y) x hx'

theorem foldlMin_mem (l : List ℚ) : ∀ a : ℚ, l.foldl min a = a ∨ l.foldl min a ∈ l := by
  induction l with
  | nil => intro a; exact Or.inl rfl
  | cons y ys ih =>
      intro a
      rcases ih (min a y) with heq | hmem
      · rcases min_choice a y with hc | hc
        · exact Or.inl (by rw [List.foldl_cons, heq, hc])
        · exact Or.inr (by rw [List.foldl_cons, heq, hc]; exact List.mem_cons_self y ys)
      · exact Or.inr (List.mem_cons_of_mem y hmem)

theorem windowMin_mem (l : List ℚ) (h : l ≠ []) : windowMin l ∈ l := by
  cases l with
  | nil => exact absurd rfl h
  | cons x xs =>
      rcases foldlMin_mem xs x with heq | hmem
      · rw [windowMin, heq]; exact List.mem_cons_self x xs
      · exact List.mem_cons_of_mem x hmem

theorem windowMin_le (l : List ℚ) (x : ℚ) (hx : x ∈ l) : windowMin l ≤ x := by
  cases l with
  | nil => simp at hx
  | cons y ys =>
      rcases List.mem_cons.mp hx with rfl | hx'
      · exact foldlMin_le ys x
      · exact foldlMin_le_mem ys y x hx'

theorem foldlMax_le (l : List ℚ) : ∀ a : ℚ, a ≤ l.foldl max a := by
  induction l with
  | nil => intro a; exact le_rfl
  | cons x xs ih =>
      intro a
      exact le_trans (le_max_left a x) (ih (max a x))

theorem foldlMax_le_mem (l : List ℚ) : ∀ (a x : ℚ), x ∈ l → x ≤ l.foldl max a := by
  induction l with
  | nil => intro a x hx; simp at hx
  | cons y ys ih =>
      intro a x hx
      rcases List.mem_cons.mp hx with rfl | hx'
      · exact le_trans (le_max_right a x) (foldlMax_le ys (max a x))
      · exact ih (max a y) x hx'

theorem foldlMax_mem (l : List ℚ) : ∀ a : ℚ, l.foldl max a = a ∨ l.foldl max a ∈ l := by
  induction l with
  | nil => intro a; exact Or.inl rfl
  | cons y ys ih =>
      intro a
      rcases ih (max a y) with heq | hmem
      · rcases max_choice a y with hc | hc
        · exact Or.inl (by rw [List.foldl_cons, heq, hc])
        · exact Or.inr (by rw [List.foldl_cons, heq, hc]; exact List.mem_cons_self y ys)
      · exact Or.inr (List.mem_cons_of_mem y hmem)

theorem windowMax_mem (l : List ℚ) (h : l ≠ []) : windowMax l ∈ l := by
  cases l with
  | nil => exact absurd rfl h
  | cons x xs =>
      rcases foldlMax_mem xs x with heq | hmem
      · rw [windowMax, heq]; exact List.mem_cons_self x xs
      · exact List.mem_cons_of_mem x hmem

theorem windowMax_le (l : List ℚ) (x : ℚ) (hx : x ∈ l) : x ≤ windowMax l := by
  cases l with
  | nil => simp at hx
  | cons y ys =>
      rcases List.mem_cons.mp hx with rfl | hx'
      · exact foldlMax_le ys x
      · exact foldlMax_le_mem ys y x hx'

/- ### Helper lemmas: the three return branches of calculate_strategy -/

theorem calc_eq_long (df : List Candle) (h2 : 2 ≤ df.length) (hL : longCond df = true) :
    calculate_strategy df =
      some (some Direction.LONG, lastClose df, windowMin (lowWindow df),
        lastClose df + (lastClose df - windowMin (lowWindow df)) * RISK_REWARD) := by
  unfold calculate_strategy
  rw [if_neg (by omega)]
  simp [hL]

theorem short_imp_not_long (df : List Candle) (hS : shortCond df = true) :
    longCond df = false := by
  simp only [shortCond, Bool.and_eq_true] at hS
  obtain ⟨hS1, _⟩ := hS
  simp only [longCond]
  rcases hts : (trailingStopList (haCloseList df) (nLossList df)).getD (df.length - 1) none
    with _ | t
  · simp [fgt]
  · rw [hts] at hS1
    simp only [flt, decide_eq_true_eq] at hS1
    simp only [fgt]
    rw [decide_eq_false (not_lt.mpr hS1.le), Bool.false_and]

theorem calc_eq_short (df : List Candle) (h2 : 2 ≤ df.length) (hS : shortCond df = true) :
    calculate_strategy df =
      some (some Direction.SHORT, lastClose df, windowMax (highWindow df),
        lastClose df - (windowMax (highWindow df) - lastClose df) * RISK_REWARD) := by
  unfold calculate_strategy
  rw [if_neg (by omega)]
  simp [short_imp_not_long df hS, hS]

theorem calc_eq_none (df : List Candle) (h2 : 2 ≤ df.length)
    (hL : longCond df = false) (hS : shortCond df = false) :
    calculate_strategy df = some (none, lastClose df, 0, 0) := by
  unfold calculate_strategy
  rw [if_neg (by omega)]
  simp [hL, hS]

/-- C10: when no crossover is detected, calculate_strategy still returns the
full 4-tuple: a `None` signal, the raw close of the last candle as the entry
price, and the `0.0` placeholders for stop-loss and take-profit. -/
theorem C10_no_signal_quad (df : List Candle) (h2 : 2 ≤ df.length)
    (hL : longCond df = false) (hS : shortCond df = false) :
    calculate_strategy df = some (none, lastClose df, 0, 0) :=
  calc_eq_none df h2 hL hS

/-- Witness for C10 on the flat two-candle series. -/
theorem C10_witness : calculate_strategy dfFlat = some (none, lastClose dfFlat, 0, 0) :=
  C10_no_signal_quad dfFlat (by decide) (by with_unfolding_all decide)
    (by with_unfolding_all decide)

/-- C4 is false on the code: at `dfLong` a LONG crossover fires while the
swing low (96) is above the raw entry close (95), so the computed risk is
negative; the claim demands the signal be suppressed, yet the function
returns it, with a take-profit (93) on the wrong side of the entry. -/
theorem C4_counterexample :
    calculate_strategy dfLong = some (some Direction.LONG, 95, 96, 93) := by
  with_unfolding_all decide

/-- C4 amended: the code performs no degenerate-risk check.  Whenever a
crossover fires, the signal is returned unconditionally; when the stop sits
on the wrong side of the entry the take-profit also lands on the wrong side,
and nothing is suppressed. -/
theorem C4_no_degenerate_suppression :
    (∀ df, 2 ≤ df.length → longCond df = true →
      ∃ sl tp, calculate_strategy df = some (some Direction.LONG, lastClose df, sl, tp) ∧
        (lastClose df ≤ sl → tp ≤ lastClose df)) ∧
    (∀ df, 2 ≤ df.length → shortCond df = true →
      ∃ sl tp, calculate_strategy df = some (some Direction.SHORT, lastClose df, sl, tp) ∧
        (sl ≤ lastClose df → lastClose df ≤ tp)) := by
  constructor
  · intro df h2 hL
    refine ⟨_, _, calc_eq_long df h2 hL, fun hle => ?_⟩
    have hR : RISK_REWARD = 2 := rfl
    rw [hR]
    nlinarith
  · intro df h2 hS
    refine ⟨_, _, calc_eq_short df h2 hS, fun hle => ?_⟩
    have hR : RISK_REWARD = 2 := rfl
    rw [hR]
    nlinarith

/-- Witness for the amended C4 at the degenerate series `dfLong`. -/
theorem C4_witness :
    ∃ sl tp, calculate_strategy dfLong = some (some Direction.LONG, lastClose dfLong, sl, tp) ∧
      (lastClose dfLong ≤ sl → tp ≤ lastClose dfLong) :=
  C4_no_degenerate_suppression.1 dfLong (by decide) (by with_unfolding_all decide)

/- ### Crossover characterisation -/

theorem longCond_iff (df : List Candle) (tN tP : ℚ)
    (hN : (trailingStopList (haCloseList df) (nLossList df)).getD (df.length - 1) none
      = some tN)
    (hP : (trailingStopList (haCloseList df) (nLossList df)).getD (df.length - 1 - 1) none
      = some tP) :
    longCond df = true ↔
      (tN < (haCloseList df).getD (df.length - 1) 0 ∧
        (haCloseList df).getD (df.length - 1 - 1) 0 ≤ tP) := by
  simp only [longCond]
  rw [hN, hP]
  simp [fgt, fle]

theorem shortCond_iff (df : List Candle) (tN tP : ℚ)
    (hN : (trailingStopList (haCloseList df) (nLossList df)).getD (df.length - 1) none
      = some tN)
    (hP : (trailingStopList (haCloseList df) (nLossList df)).getD (df.length - 1 - 1) none
      = some tP) :
    shortCond df = true ↔
      ((haCloseList df).getD (df.length - 1) 0 < tN ∧
        tP ≤ (haCloseList df).getD (df.length - 1 - 1) 0) := by
  simp only [shortCond]
  rw [hN, hP]
  simp [flt, fge]

/-- C2: with the trailing stop defined at the last two indices, the function
reports LONG iff `haClose` crossed above the stop between them, SHORT iff it
crossed below, and no signal otherwise — evaluating only this single pair of
candles, so at most one signal per call. -/
theorem C2_signal_iff (df : List Candle) (tN tP : ℚ) (h2 : 2 ≤ df.length)
    (hN : (trailingStopList (haCloseList df) (nLossList df)).getD (df.length - 1) none
      = some tN)
    (hP : (trailingStopList (haCloseList df) (nLossList df)).getD (df.length - 1 - 1) none
      = some tP) :
    calculate_strategy df ≠ none ∧
    (∀ sig e sl tp, calculate_strategy df = some (sig, e, sl, tp) →
      ((sig = some Direction.LONG ↔
          tN < (haCloseList df).getD (df.length - 1) 0 ∧
          (haCloseList df).getD (df.length - 1 - 1) 0 ≤ tP) ∧
       (sig = some Direction.SHORT ↔
          (haCloseList df).getD (df.length - 1) 0 < tN ∧
          tP ≤ (haCloseList df).getD (df.length - 1 - 1) 0) ∧
       (sig = none ↔
          ¬(tN < (haCloseList df).getD (df.length - 1) 0 ∧
            (haCloseList df).getD (df.length - 1 - 1) 0 ≤ tP) ∧
          ¬((haCloseList df).getD (df.length - 1) 0 < tN ∧
            tP ≤ (haCloseList df).getD (df.length - 1 - 1) 0)))) := by
  have hli := longCond_iff df tN tP hN hP
  have hsi := shortCond_iff df tN tP hN hP
  cases hL : longCond df with
  | true =>
      have hcond := hli.mp hL
      rw [calc_eq_long df h2 hL]
      refine ⟨by simp, ?_⟩
      rintro sig e sl tp heq
      simp only [Option.some.injEq, Prod.mk.injEq] at heq
      obtain ⟨hsig, -, -, -⟩ := heq
      subst hsig
      refine ⟨⟨fun _ => hcond, fun _ => rfl⟩, ?_, ?_⟩
      · constructor
        · intro h; exact absurd h (by simp)
        · rintro ⟨ha, -⟩; exact absurd hcond.1 (not_lt.mpr ha.le)
      · constructor
        · intro h; exact absurd h (by simp)
        · rintro ⟨hna, -⟩; exact absurd hcond hna
  | false =>
      cases hS : shortCond df with
      | true =>
          have hcond := hsi.mp hS
          have hlf : ¬(tN < (haCloseList df).getD (df.length - 1) 0 ∧
              (haCloseList df).getD (df.length - 1 - 1) 0 ≤ tP) := by
            intro hc
            rw [hli.mpr hc] at hL
            cases hL
          rw [calc_eq_short df h2 hS]
          refine ⟨by simp, ?_⟩
          rintro sig e sl tp heq
          simp only [Option.some.injEq, Prod.mk.injEq] at heq
          obtain ⟨hsig, -, -, -⟩ := heq
          subst hsig
          refine ⟨?_, ⟨fun _ => hcond, fun _ => rfl⟩, ?_⟩
          · constructor
            · intro h; exact absurd h (by simp)
            · intro hc; exact absurd hc hlf
          · constructor
            · intro h; exact absurd h (by simp)
            · rintro ⟨-, hns⟩; exact absurd hcond hns
      | false =>
          have hlf : ¬(tN < (haCloseList df).getD (df.length - 1) 0 ∧
              (haCloseList df).getD (df.length - 1 - 1) 0 ≤ tP) := by
            intro hc
            rw [hli.mpr hc] at hL
            cases hL
          have hsf : ¬((haCloseList df).getD (df.length - 1) 0 < tN ∧
              tP ≤ (haCloseList df).getD (df.length - 1 - 1) 0) := by
            intro hc
            rw [hsi.mpr hc] at hS
            cases hS
          rw [calc_eq_none df h2 hL hS]
          refine ⟨by simp, ?_⟩
          rintro sig e sl tp heq
          simp only [Option.some.injEq, Prod.mk.injEq] at heq
          obtain ⟨hsig, -, -, -⟩ := heq
          subst hsig
          refine ⟨?_, ?_, ?_⟩
          · constructor
            · intro h; exact absurd h (by simp)
            · intro hc; exact absurd hc hlf
          · constructor
            · intro h; exact absurd h (by simp)
            · intro hc; exact absurd hc hsf
          · exact ⟨fun _ => ⟨hlf, hsf⟩, fun _ => rfl⟩

/-- Witness for C2 on the flat two-candle series, whose trailing stop is
defined (`some 0`) at both of the last two indices. -/
theorem C2_witness : calculate_strategy dfFlat ≠ none :=
  (C2_signal_iff dfFlat 0 0 (by decide) (by with_unfolding_all decide)
    (by with_unfolding_all decide)).1

/-- C3: on a LONG signal the entry is the raw close of the last candle, the
stop-loss is the minimum raw low over the last `SL_LOOKBACK` candles
(inclusive), the take-profit is `entry + risk × RISK_REWARD`, and hence the
reward-to-risk quotient is exactly `RISK_REWARD` whenever the risk is
positive; mirrored for SHORT with the maximum raw high. -/
theorem C3_risk_targets (df : List Candle) (h2 : 2 ≤ df.length)
    (hW : SL_LOOKBACK ≤ df.length) :
    (∀ e sl tp, calculate_strategy df = some (some Direction.LONG, e, sl, tp) →
      e = lastClose df ∧
      (lowWindow df).length = SL_LOOKBACK ∧
      sl ∈ lowWindow df ∧ (∀ x ∈ lowWindow df, sl ≤ x) ∧
      tp = e + (e - sl) * RISK_REWARD ∧
      (sl < e → (tp - e) / (e - sl) = RISK_REWARD)) ∧
    (∀ e sl tp, calculate_strategy df = some (some Direction.SHORT, e, sl, tp) →
      e = lastClose df ∧
      (highWindow df).length = SL_LOOKBACK ∧
      sl ∈ highWindow df ∧ (∀ x ∈ highWindow df, x ≤ sl) ∧
      tp = e - (sl - e) * RISK_REWARD ∧
      (e < sl → (e - tp) / (sl - e) = RISK_REWARD)) := by
  have hwlen : (lowWindow df).length = SL_LOOKBACK := by
    simp only [lowWindow, List.length_map, List.length_drop]
    omega
  have hhlen : (highWindow df).length = SL_LOOKBACK := by
    simp only [highWindow, List.length_map, List.length_drop]
    omega
  have hwne : lowWindow df ≠ [] := by
    intro h; rw [h] at hwlen; simp [SL_LOOKBACK] at hwlen
  have hhne : highWindow df ≠ [] := by
    intro h; rw [h] at hhlen; simp [SL_LOOKBACK] at hhlen
  constructor
  · intro e sl tp heq
    cases hL : longCond df with
    | false =>
        cases hS : shortCond df with
        | false => rw [calc_eq_none df h2 hL hS] at heq; simp at heq
        | true => rw [calc_eq_short df h2 hS] at heq; simp at heq
    | true =>
        rw [calc_eq_long df h2 hL] at heq
        simp only [Option.some.injEq, Prod.mk.injEq] at heq
        obtain ⟨-, he, hsl, htp⟩ := heq
        subst he; subst hsl; subst htp
        refine ⟨rfl, hwlen, windowMin_mem _ hwne, fun x hx => windowMin_le _ x hx, rfl, ?_⟩
        intro hlt
        have h0 : lastClose df - windowMin (lowWindow df) ≠ 0 := sub_ne_zero.mpr (ne_of_gt hlt)
        field_simp
  · intro e sl tp heq
    cases hL : longCond df with
    | false =>
        cases hS : shortCond df with
        | false => rw [calc_eq_none df h2 hL hS] at heq; simp at heq
        | true =>
            rw [calc_eq_short df h2 hS] at heq
            simp only [Option.some.injEq, Prod.mk.injEq] at heq
            obtain ⟨-, he, hsl, htp⟩ := heq
            subst he; subst hsl; subst htp
            refine ⟨rfl, hhlen, windowMax_mem _ hhne, fun x hx => windowMax_le _ x hx, rfl, ?_⟩
            intro hlt
            have h0 : windowMax (highWindow df) - lastClose df ≠ 0 :=
              sub_ne_zero.mpr (ne_of_gt hlt)
            field_simp
    | true => rw [calc_eq_long df h2 hL] at heq; simp at heq

/-- Witness for C3: the reward/risk quotient at the concrete LONG signal of
`dfLong2` equals the configured ratio. -/
theorem C3_witness : ((144 : ℚ) - 112) / (112 - 96) = RISK_REWARD :=
  ((C3_risk_targets dfLong2 (by decide) (by decide)).1 112 96 144
    (by with_unfolding_all decide)).2.2.2.2.2 (by norm_num)

/-- C6 is false on the code: in `dfNan` the loss threshold at index 1 is
undefined (ATR warm-up), yet the trailing-stop loop feeds it straight into
the `price + n_loss` / `price - n_loss` arithmetic, making the stored
trailing stop itself NaN — the undefined value is propagated, not skipped. -/
theorem C6_counterexample :
    nLossList dfNan = [none, none] ∧
    trailingStopList (haCloseList dfNan) (nLossList dfNan) = [some 0, none] := by
  with_unfolding_all decide

/-- C6 amended: warm-up indices are not skipped.  The undefined loss value
enters the trailing-stop update, and in the two branches that do not take a
`max`/`min` against the previous stop the stored trailing stop becomes
undefined (NaN) itself. -/
theorem C6_warmup_nan_propagates (hc : List ℚ) (nl : List FVal)
    (hlen : hc.length = nl.length) (i : ℕ) (h1 : 1 ≤ i) (hi : i < hc.length)
    (hnan : nl.getD i none = none) (s : ℚ)
    (hs : (trailingStopList hc nl).getD (i - 1) none = some s) :
    (hc.getD i 0 > s → ¬(hc.getD (i - 1) 0 > s) →
      (trailingStopList hc nl).getD i none = none) ∧
    (¬(hc.getD i 0 > s) → ¬(hc.getD i 0 < s ∧ hc.getD (i - 1) 0 < s) →
      (trailingStopList hc nl).getD i none = none) := by
  constructor <;> intro ha hb <;>
    rw [trailingStop_step hc nl hlen i h1 hi, hs, hnan]
  · exact utStep_none_gt s _ _ ha hb
  · exact utStep_none_le s _ _ ha hb

/-- Witness for the amended C6 at the concrete warm-up series `dfNan`. -/
theorem C6_witness :
    (trailingStopList (haCloseList dfNan) (nLossList dfNan)).getD 1 none = none :=
  (C6_warmup_nan_propagates (haCloseList dfNan) (nLossList dfNan) (by decide) 1 le_rfl
    (by decide) (by with_unfolding_all decide) 0 (by with_unfolding_all decide)).1
    (by with_unfolding_all decide) (by with_unfolding_all decide)

/- ### Ranking lemmas -/

theorem sortedValid_sorted (T : Tickers) :
    List.Sorted (fun a b => sortKey T b ≤ sortKey T a) (sortedValid T) := by
  haveI : IsTotal String (fun a b => sortKey T b ≤ sortKey T a) :=
    ⟨fun a b => le_total _ _⟩
  haveI : IsTrans String (fun a b => sortKey T b ≤ sortKey T a) :=
    ⟨fun a b c h1 h2 => le_trans h2 h1⟩
  exact List.sorted_insertionSort _ _

/-- C7 is false on the code: in `T0` the symbol `A/USDT` reports a 24h change
of `0.0` while `B/USDT` reports `-5`, so descending order of percentage
change would put `A/USDT` first; but the sort key treats the falsy `0.0`
like a missing value and substitutes `-100`, so `A/USDT` is ranked last. -/
theorem C7_counterexample :
    get_top_gainers T0 = ["B/USDT", "A/USDT"] ∧
    pctOf T0 "A/USDT" = some (some 0) ∧
    pctOf T0 "B/USDT" = some (some (-5)) := by
  with_unfolding_all decide

/-- C7 amended: the eligible symbols are returned sorted by descending
effective key — the reported change when truthy, the `-100` sentinel when the
change is missing or zero — truncated to `TOP_N`; the output is a prefix of a
permutation of the eligible list, every eligible symbol survives into the
sorted ranking, and when at most `TOP_N` eligible symbols exist all of them
are returned. -/
theorem C7_top_gainers_ranking (T : Tickers) :
    List.Sorted (fun a b => sortKey T b ≤ sortKey T a) (get_top_gainers T) ∧
    (get_top_gainers T).length = min TOP_N (validTickers T).length ∧
    ((validTickers T).length ≤ TOP_N → (get_top_gainers T).Perm (validTickers T)) ∧
    (∀ s ∈ validTickers T, s ∈ sortedValid T) := by
  have hperm := List.perm_insertionSort
    (fun a b => sortKey T b ≤ sortKey T a) (validTickers T)
  refine ⟨?_, ?_, ?_, ?_⟩
  · exact List.Pairwise.sublist (List.take_sublist _ _) (sortedValid_sorted T)
  · simp only [get_top_gainers, List.length_take, sortedValid]
    rw [hperm.length_eq]
  · intro hle
    have heq : get_top_gainers T = sortedValid T := by
      simp only [get_top_gainers]
      apply List.take_of_length_le
      simpa [sortedValid, hperm.length_eq] using hle
    rw [heq]
    exact hperm
  · intro s hs
    exact hperm.mem_iff.mpr hs

/-- Witness for the amended C7: on `T0` fewer eligible symbols than `TOP_N`
exist, so all of them are returned. -/
theorem C7_witness : (get_top_gainers T0).Perm (validTickers T0) :=
  (C7_top_gainers_ranking T0).2.2.1 (by with_unfolding_all decide)

/-- C9: a present-but-zero 24h change is keyed exactly like a missing one —
the `-100` sentinel — so in the sorted ranking a zero-change symbol comes
strictly after every symbol whose reported change is a nonzero value above
`-100`. -/
theorem C9_zero_change_sentinel (T : Tickers) (s1 s2 : String) (v : ℚ)
    (h1 : pctOf T s1 = some (some 0)) (h2 : pctOf T s2 = some (some v))
    (hv0 : v ≠ 0) (hv : -100 < v) :
    sortKey T s1 = -100 ∧
    ∀ (i j : ℕ) (hi : i < (sortedValid T).length) (hj : j < (sortedValid T).length),
      (sortedValid T).getD i "" = s1 → (sortedValid T).getD j "" = s2 → j < i := by
  have hk1 : sortKey T s1 = -100 := by simp [sortKey, h1]
  have hk2 : sortKey T s2 = v := by simp [sortKey, h2, hv0]
  refine ⟨hk1, ?_⟩
  intro i j hi hj hgi hgj
  rw [List.getD_eq_getElem _ _ hi] at hgi
  rw [List.getD_eq_getElem _ _ hj] at hgj
  have hne : s1 ≠ s2 := by
    intro he
    rw [he, h2] at h1
    simp only [Option.some.injEq] at h1
    exact hv0 h1
  have hij : i ≠ j := by
    intro he
    subst he
    exact hne (hgi.symm.trans hgj)
  rcases Nat.lt_or_ge j i with h | h
  · exact h
  · exfalso
    have hij' : i < j := Nat.lt_of_le_of_ne h hij
    have hrel := List.pairwise_iff_getElem.mp (sortedValid_sorted T) i j hi hj hij'
    rw [hgi, hgj, hk1, hk2] at hrel
    linarith

/-- Witness for C9 on the concrete ticker map `T0`: `A/USDT` (0% change) is
keyed `-100` and placed after `B/USDT` (-5% change). -/
theorem C9_witness : sortKey T0 "A/USDT" = -100 ∧ (0 : ℕ) < 1 := by
  have H := C9_zero_change_sentinel T0 "A/USDT" "B/USDT" (-5)
    (by with_unfolding_all decide) (by with_unfolding_all decide)
    (by norm_num) (by norm_num)
  exact ⟨H.1, H.2 1 0 (by with_unfolding_all decide) (by with_unfolding_all decide)
    (by with_unfolding_all decide) (by with_unfolding_all decide)⟩

/- ### Scanner lemmas -/

theorem processSymbol_congr (f g : String → Except Unit (List Candle)) (s : String)
    (h : f s = g s) : processSymbol f s = processSymbol g s := by
  unfold processSymbol
  rw [h]

theorem processSymbol_symbol (f : String → Except Unit (List Candle)) (s : String)
    (a : Alert) (h : processSymbol f s = some a) : a.symbol = s := by
  unfold processSymbol at h
  split at h
  · exact absurd h (by simp)
  · split at h
    · exact absurd h (by simp)
    · split at h
      · exact absurd h (by simp)
      · split at h
        · exact absurd h (by simp)
        · simp only [Option.some.injEq] at h
          rw [← h]

/-- C8: the scan is a strictly sequential per-symbol pass — the emitted
alerts are exactly the per-symbol results in order; a fetched series shorter
than the required window yields no alert for that symbol; a raised exception
(fetch failure) yields no alert for that symbol; and failures are isolated —
changing what happens at one symbol cannot change the alerts emitted for the
others, so every remaining candidate is still evaluated and the scan always
completes. -/
theorem C8_scanner_isolation :
    (∀ f syms, runScanner f syms = syms.filterMap (processSymbol f)) ∧
    (∀ f sym df, f sym = Except.ok df → df.length < LIMIT →
      processSymbol f sym = none) ∧
    (∀ f sym err, f sym = Except.error err → processSymbol f sym = none) ∧
    (∀ f g b syms, (∀ s, s ≠ b → f s = g s) →
      (runScanner f syms).filter (fun a => !(a.symbol == b)) =
        (runScanner g syms).filter (fun a => !(a.symbol == b))) := by
  refine ⟨?_, ?_, ?_, ?_⟩
  · intro f syms
    induction syms with
    | nil => rfl
    | cons s rest ih =>
        cases hp : processSymbol f s with
        | none => simp [runScanner, hp, ih]
        | some a => simp [runScanner, hp, ih]
  · intro f sym df hf hl
    simp [processSymbol, hf, hl]
  · intro f sym err hf
    simp [processSymbol, hf]
  · intro f g b syms hfg
    induction syms with
    | nil => rfl
    | cons s rest ih =>
        by_cases hsb : s = b
        · subst hsb
          cases hpf : processSymbol f s with
          | none =>
              cases hpg : processSymbol g s with
              | none =>
                  simp only [runScanner, hpf, hpg]
                  exact ih
              | some a =>
                  have ha : a.symbol = s := processSymbol_symbol g s a hpg
                  simp only [runScanner, hpf, hpg, List.filter_cons, ha,
                    beq_self_eq_true, Bool.not_true, Bool.false_eq_true, if_false]
                  exact ih
          | some a =>
              have ha : a.symbol = s := processSymbol_symbol f s a hpf
              cases hpg : processSymbol g s with
              | none =>
                  simp only [runScanner, hpf, hpg, List.filter_cons, ha,
                    beq_self_eq_true, Bool.not_true, Bool.false_eq_true, if_false]
                  exact ih
              | some a2 =>
                  have ha2 : a2.symbol = s := processSymbol_symbol g s a2 hpg
                  simp only [runScanner, hpf, hpg, List.filter_cons, ha, ha2,
                    beq_self_eq_true, Bool.not_true, Bool.false_eq_true, if_false]
                  exact ih
        · have heq : processSymbol f s = processSymbol g s :=
            processSymbol_congr f g s (hfg s hsb)
          cases hp : processSymbol f s with
          | none =>
              have hp2 : processSymbol g s = none := heq.symm.trans hp
              simp only [runScanner, hp, hp2]
              exact ih
          | some a =>
              have hp2 : processSymbol g s = some a := heq.symm.trans hp
              simp only [runScanner, hp, hp2, List.filter_cons]
              rw [ih]

/-- Witness for C8: a fetch failure injected at one symbol leaves the alerts
for the other symbols unchanged. -/
theorem C8_witness :
    (runScanner (fun s => if s = "B/USDT" then Except.error () else Except.ok dfFlat)
        ["A/USDT", "B/USDT"]).filter (fun a => !(a.symbol == "B/USDT")) =
      (runScanner (fun _ => Except.ok dfFlat)
        ["A/USDT", "B/USDT"]).filter (fun a => !(a.symbol == "B/USDT")) :=
  C8_scanner_isolation.2.2.2 _ _ "B/USDT" _ (fun s hs => by simp [hs])

